import Mathlib

/-!
Verification of the natural-language specification of the `hansen7/scvi-tools`
extension (WVAE importance-weighted training module, differential-expression
utilities, and training orchestration) against a shallow Lean embedding of the
source code.

Embedding conventions:
* Torch tensors relevant to the loss are modelled as a flat row-major array of
  scalars together with a shape (`Tensor`).  Machine floats are modelled
  exactly, by an arbitrary linear ordered field `R`; the exponential used by
  `torch.softmax` is passed as a parameter `expR` and instantiated with
  `Real.exp` over `R = ℝ` in the theorems.  This keeps every definition
  executable.
* `Tensor.detach` is the identity on values: detaching affects only the
  autograd graph, which is outside this value-level embedding.
* pandas/NumPy float data in the differential-expression and training-history
  code is modelled by `ℚ`, where only field arithmetic occurs.
* Shape-only reasoning about `WVAE.inference` / `WVAE.generative` uses a
  separate shape-level embedding (`WVAE.inferenceShapes`, ...); the behaviour
  of the external encoder/decoder networks and of torch distribution
  primitives (`rsample`, `log_prob`, broadcasting) is modelled from the spec
  and the documented torch semantics, while the control flow mirrors
  `src/scvi/external/wscvi/_module.py` line by line.
-/

namespace Scvi

/-! ### Value-level tensor model (for `WVAE.loss`) -/

variable (R : Type) [LinearOrderedField R]

/-- A torch tensor: a shape together with flat row-major data.  Entries of
`data` at flat indices beyond `shape.prod` are irrelevant. -/
structure Tensor where
  shape : List ℕ
  data : ℕ → R

variable {R}

/-- Number of dimensions (`torch.Tensor.ndim`). -/
def Tensor.ndim (t : Tensor R) : ℕ := t.shape.length

/-- Total number of entries. -/
def Tensor.size (t : Tensor R) : ℕ := t.shape.prod

/-- Elementwise subtraction (`a - b`); both operands share a shape at every
use site in `WVAE.loss`, so no broadcasting is modelled. -/
def Tensor.sub (a b : Tensor R) : Tensor R :=
  ⟨a.shape, fun i => a.data i - b.data i⟩

/-- Elementwise product (`a * b`). -/
def Tensor.mul (a b : Tensor R) : Tensor R :=
  ⟨a.shape, fun i => a.data i * b.data i⟩

/-- Elementwise negation (`-a`). -/
def Tensor.negT (t : Tensor R) : Tensor R :=
  ⟨t.shape, fun i => -(t.data i)⟩

/-- Torch `t.mean()`: mean over all entries. -/
def Tensor.mean (t : Tensor R) : R :=
  (∑ i ∈ Finset.range t.size, t.data i) / (t.size : R)

/-- Torch `t.mean(0)`: mean over the leading axis.  In row-major layout a
tensor of shape `p :: rest` stores entry `(i, j)` at flat index
`i * rest.prod + j`. -/
def Tensor.mean0 (t : Tensor R) : Tensor R :=
  match t.shape with
  | [] => t
  | p :: rest =>
      ⟨rest, fun j => (∑ i ∈ Finset.range p, t.data (i * rest.prod + j)) / (p : R)⟩

/-- Torch `t.sum(dim=0)`: sum over the leading axis. -/
def Tensor.sum0 (t : Tensor R) : Tensor R :=
  match t.shape with
  | [] => t
  | p :: rest =>
      ⟨rest, fun j => ∑ i ∈ Finset.range p, t.data (i * rest.prod + j)⟩

/-- Torch `softmax(t, dim=0)`: softmax across the leading axis, separately for
every index of the remaining axes.  `expR` models the floating-point
exponential. -/
def Tensor.softmax0 (expR : R → R) (t : Tensor R) : Tensor R :=
  match t.shape with
  | [] => t
  | p :: rest =>
      ⟨p :: rest, fun idx =>
        expR (t.data idx) /
          ∑ k ∈ Finset.range p, expR (t.data (k * rest.prod + idx % rest.prod))⟩

/-- Torch `t.detach()`: identity on values (autograd is outside the
embedding). -/
def Tensor.detach (t : Tensor R) : Tensor R := t

/-- Failure modes of `WVAE.loss`: the `assert log_ratios.ndim == 2` shape
contract, and the `raise ValueError(...)` on an unknown loss type. -/
inductive LossFailure where
  | assertionError : LossFailure
  | valueError : String → LossFailure
deriving DecidableEq

variable (R) in
/-- The record returned by `WVAE.loss` (`LossRecorder(loss, reconst_loss,
kl_local, kl_global)`); the two KL placeholders are the scalars
`torch.tensor(0.0)`. -/
structure LossRecorder where
  loss : R
  reconst_loss : Tensor R
  kl_local : R
  kl_global : R

/-- Embedding of `WVAE.loss` (src/scvi/external/wscvi/_module.py, lines
246-269).  `loss_type` is the module's configured `self.loss_type`; the three
tensors are `generative_outputs["log_pjoint"]`,
`inference_outputs["log_qjoint"]` and
`generative_outputs["log_px_latents"]`; `kl_weight` is the annealing-weight
argument of the method. -/
def WVAE.loss (expR : R → R) (loss_type : String)
    (log_pjoint log_qjoint log_px_latents : Tensor R)
    (kl_weight : R) : Except LossFailure (LossRecorder R) :=
  let log_ratios := log_pjoint.sub log_qjoint
  if log_ratios.ndim ≠ 2 then
    .error .assertionError
  else if loss_type = "ELBO" then
    .ok ⟨-log_ratios.mean, (log_px_latents.mean0).negT, 0, 0⟩
  else if loss_type = "IWELBO" then
    .ok ⟨-((((log_ratios.softmax0 expR).detach).mul log_ratios).sum0).mean,
         (log_px_latents.mean0).negT, 0, 0⟩
  else
    .error (.valueError ("Unknown loss type " ++ loss_type))

/-- A rank-2 tensor of shape `(P, C)` holding `f i j` at entry `(i, j)`. -/
def ofMatrix (P C : ℕ) (f : ℕ → ℕ → R) : Tensor R :=
  ⟨[P, C], fun idx => f (idx / C) (idx % C)⟩

/-- Spec-side formula for the ELBO loss, transcribed from the spec sentence
"ELBO mode: loss = negative mean of `log_ratios` over all entries". -/
def elboSpec (P C : ℕ) (lr : ℕ → ℕ → R) : R :=
  -((∑ i ∈ Finset.range P, ∑ j ∈ Finset.range C, lr i j) / ((P : R) * (C : R)))

/-- Spec-side formula for the IWELBO loss, transcribed from the spec sentence
"per-cell self-normalized importance weights = softmax of `log_ratios` over
the particle axis ...; loss = negative mean over cells of the weighted sum of
`log_ratios` over particles". -/
def iwelboSpec (expR : R → R) (P C : ℕ) (lr : ℕ → ℕ → R) : R :=
  -((∑ j ∈ Finset.range C, ∑ i ∈ Finset.range P,
      (expR (lr i j) / ∑ k ∈ Finset.range P, expR (lr k j)) * lr i j) / (C : R))

/-! ### Shape-level embedding of `WVAE.inference` and `WVAE.generative` -/

/-- A tensor shape, as a list of dimension sizes with the leading axis first. -/
abbrev Shape := List ℕ

/-- A value produced by the inference/generative code: either a Python float
scalar (such as `log_ql = 0.0`) or a tensor of some shape. -/
inductive SVal where
  | scalar : SVal
  | tensor : Shape → SVal
deriving DecidableEq

/-- Right-aligned broadcasting on reversed shapes (torch/NumPy semantics,
modelled for the compatible case: axes are matched from the trailing end and
the larger extent wins). -/
def bcRev : List ℕ → List ℕ → List ℕ
  | [], ys => ys
  | x :: xs, [] => x :: xs
  | x :: xs, y :: ys => max x y :: bcRev xs ys

/-- Torch broadcasting of two shapes (modelled for the compatible case). -/
def broadcastShape (a b : Shape) : Shape :=
  (bcRev a.reverse b.reverse).reverse

/-- Addition of two values, at the shape level: adding a Python scalar to a
tensor keeps the tensor's shape; adding two tensors broadcasts. -/
def SVal.add : SVal → SVal → SVal
  | .scalar, v => v
  | .tensor s, .scalar => .tensor s
  | .tensor s, .tensor t => .tensor (broadcastShape s t)

/-- Shape of `t.sum(-1)`: the trailing axis is summed away. -/
def sumLastShape (s : Shape) : Shape := s.dropLast

/-- Shape rule of `Distribution.rsample(sample_shape)` (torch semantics):
result shape = sample_shape ++ batch_shape of the distribution. -/
def rsampleShape (sampleShape batchShape : Shape) : Shape :=
  sampleShape ++ batchShape

/-- Shape rule of `Normal(...).log_prob(value)` (torch semantics): the
parameter shape and the value shape are broadcast together. -/
def logProbShape (paramShape valueShape : Shape) : Shape :=
  broadcastShape paramShape valueShape

/-- The slice of the `WVAE.__init__` configuration that determines the shapes
produced by `inference` and `generative`. -/
structure WVAECfg where
  n_particles : ℕ
  use_observed_lib_size : Bool
  n_latent : ℕ
  dispersion : String

/-- Lines 94-95 of `_module.py`: `n_samples_ = (P,)`, collapsed to the empty
tuple when `P == 1`. -/
def nSamplesTuple (P : ℕ) : Shape :=
  if P = 1 then [] else [P]

/-- The shapes in the dictionary returned by `WVAE.inference`. -/
structure InferenceShapes where
  z : Shape
  library : Shape
  log_qz : SVal
  log_ql : SVal
  log_qjoint : SVal

/-- Shape-level embedding of `WVAE.inference` (lines 79-141 of `_module.py`)
for an observation tensor of shape (`nCells` × genes).  Modelled from the
spec: the external `z_encoder` returns `qz`, a Normal whose parameter tensors
have shape (cells × latent-dim), and the external `l_encoder` returns `ql`
with parameter shape (cells × 1); `z_transformation` preserves shapes.  The
control flow (observed-library branch, `n_samples_` collapse, `rsample`,
`log_prob(...).sum(-1)`, `log_qjoint = log_ql + log_qz`) mirrors the source.
-/
def WVAE.inferenceShapes (cfg : WVAECfg) (nCells : ℕ) (n_samples : Option ℕ) :
    InferenceShapes :=
  let P := n_samples.getD cfg.n_particles
  let ns := nSamplesTuple P
  let qzShape : Shape := [nCells, cfg.n_latent]
  let untran_z := rsampleShape ns qzShape
  let log_qz : SVal := .tensor (sumLastShape (logProbShape qzShape untran_z))
  let z := untran_z
  if cfg.use_observed_lib_size then
    { z := z
      library := [nCells, 1]
      log_qz := log_qz
      log_ql := .scalar
      log_qjoint := SVal.add .scalar log_qz }
  else
    let qlShape : Shape := [nCells, 1]
    let library := rsampleShape ns qlShape
    let log_ql : SVal := .tensor (sumLastShape (logProbShape qlShape library))
    { z := z
      library := library
      log_qz := log_qz
      log_ql := log_ql
      log_qjoint := SVal.add log_ql log_qz }

/-- Modelled from the spec: the external decoder maps the latent (plus
covariates), library and batch index to per-gene count-likelihood parameters,
one value per gene for every particle/cell; so its outputs have the latent's
leading axes with the trailing latent axis replaced by the gene axis. -/
def decoderOutputShape (zShape : Shape) (nGenes : ℕ) : Shape :=
  zShape.dropLast ++ [nGenes]

/-- Modelled from the spec: the reconstruction log-likelihood of `x` under the
count likelihood sums the per-gene log-probabilities over the gene axis, so it
drops the trailing gene axis of the likelihood-parameter shape. -/
def reconstructionLogLikShape (zShape : Shape) (nGenes : ℕ) : Shape :=
  sumLastShape (decoderOutputShape zShape nGenes)

/-- The shapes of the log-density outputs of `WVAE.generative`. -/
structure GenerativeShapes where
  log_pz : Shape
  log_pl : SVal
  log_px_latents : Shape
  log_pjoint : SVal

/-- Shape-level embedding of `WVAE.generative` (lines 143-214 of
`_module.py`): `log_pz = Normal(zeros_like(z), ones_like(z)).log_prob(z)
.sum(-1)`; `log_pl` is `0.0` when the library size is observed, else the
per-batch log-normal prior log-density (parameter shape (cells × 1)) of
`library`, summed over the trailing axis; `log_px_latents` is the negated
reconstruction loss; `log_pjoint = log_px_latents + log_pz + log_pl`. -/
def WVAE.generativeShapes (cfg : WVAECfg) (nCells nGenes : ℕ) (z library : Shape) :
    GenerativeShapes :=
  let log_pz := sumLastShape (logProbShape z z)
  let log_pl : SVal :=
    if cfg.use_observed_lib_size then .scalar
    else .tensor (sumLastShape (logProbShape [nCells, 1] library))
  let log_px_latents := reconstructionLogLikShape z nGenes
  { log_pz := log_pz
    log_pl := log_pl
    log_px_latents := log_px_latents
    log_pjoint := SVal.add (SVal.add (.tensor log_px_latents) (.tensor log_pz)) log_pl }

/-- Shape of the dispersion tensor `px_r` after the dispersion-mode dispatch
and exponentiation in `generative` (lines 176-185). -/
def pxRShape (cfg : WVAECfg) (nCells nGenes : ℕ) (z : Shape) : Shape :=
  if cfg.dispersion = "gene-label" then [nCells, nGenes]
  else if cfg.dispersion = "gene-batch" then [nCells, nGenes]
  else if cfg.dispersion = "gene" then [nGenes]
  else decoderOutputShape z nGenes

/-- The dictionary returned by `WVAE.generative` (lines 205-214): its keys are
`px_scale`, `px_r`, `px_rate`, `px_dropout`, `log_pl`, `log_px_latents`,
`log_pz` and `log_pjoint` — there is no `px` entry. -/
def WVAE.generativeOutputDict (cfg : WVAECfg) (nCells nGenes : ℕ) (z library : Shape) :
    List (String × SVal) :=
  let g := WVAE.generativeShapes cfg nCells nGenes z library
  [("px_scale", .tensor (decoderOutputShape z nGenes)),
   ("px_r", .tensor (pxRShape cfg nCells nGenes z)),
   ("px_rate", .tensor (decoderOutputShape z nGenes)),
   ("px_dropout", .tensor (decoderOutputShape z nGenes)),
   ("log_pl", g.log_pl),
   ("log_px_latents", .tensor g.log_px_latents),
   ("log_pz", .tensor g.log_pz),
   ("log_pjoint", g.log_pjoint)]

/-- Embedding of `WVAE.estimate_likelihood` (lines 216-244): it builds the
generative inputs from the tensor batch and the supplied inference outputs
(`z`, `library`) and then evaluates `self.generative(**gen_ins)["px"]
.log_prob(tensors["x"])`.  The subscript `["px"]` is a dictionary lookup in
the generative output dictionary; a missing key is a `KeyError`. -/
def WVAE.estimate_likelihood (cfg : WVAECfg) (nCells nGenes : ℕ) (z library : Shape) :
    Except String SVal :=
  match (WVAE.generativeOutputDict cfg nCells nGenes z library).lookup "px" with
  | some (.tensor s) => .ok (.tensor (logProbShape s [nCells, nGenes]))
  | some .scalar => .ok .scalar
  | none => .error "KeyError: px"

/-! ### Differential-expression utilities (`src/scvi/model/base/_utils.py`) -/

/-- Number of cells selected by a boolean mask (`obs_col[mask].shape[0]`). -/
def countTrue (m : List Bool) : ℕ := m.countP id

/-- Embedding of `_prepare_obs` (lines 218-262) for boolean-mask population
identifiers over `n` cells (`ravel_idx` is the identity on a boolean array).
`obs_col` starts as `"None"` everywhere, cells selected by `idx1` are
relabelled `"one"`, then cells selected by `idx2` are relabelled `"two"`,
overwriting any `"one"`.  The final size check counts the cells selected by
each provided mask; when `idx2` is `None`, NumPy `obs_col[None]` has leading
extent 1, so the check can only fail on a provided mask. -/
def prepare_obs (n : ℕ) (idx1 : List Bool) (idx2 : Option (List Bool)) :
    Except String (List String × List String × Option String) :=
  let obs_col := (List.range n).map (fun i =>
    match idx2 with
    | some m2 =>
        if m2.getD i false then "two"
        else if idx1.getD i false then "one"
        else "None"
    | none => if idx1.getD i false then "one" else "None")
  let group1 := ["one"]
  let group2 : Option String := idx2.map (fun _ => "two")
  let idx2Empty : Bool := match idx2 with
    | some m2 => countTrue m2 == 0
    | none => false
  if countTrue idx1 = 0 ∨ idx2Empty then
    .error "One of idx1 or idx2 has size zero."
  else
    .ok (obs_col, group1, group2)

/-- Pandas `adata.obs[key] = column`: the column name is added if absent. -/
def assignColumn (cols : List String) (k : String) : List String :=
  if k ∈ cols then cols else cols ++ [k]

/-- Pandas `del adata.obs[key]`. -/
def deleteColumn (cols : List String) (k : String) : List String :=
  cols.erase k

/-- Embedding of `_de_core` (lines 265-351) at the level of the obs-table
column list and of the error paths that precede the DE loop.  The numeric DE
computation (`DifferentialComputation.get_bayes_factors`, imported from a
module outside this repository slice) and the caller-supplied statistics
function read the table without altering its columns, so the per-group loop
leaves the column list unchanged; with `idx1` provided, the synthetic column
`_scvi_temp_de` is assigned before the loop and deleted after it.
`groupbyCategories` lists the categories of the `groupby` column, consulted
only when both `group1` and `idx1` are absent. -/
def de_core_columns (n : ℕ) (cols : List String)
    (group1 : Option (List String)) (idx1 : Option (List Bool))
    (idx2 : Option (List Bool)) (groupbyCategories : List String) :
    Except String (List String) :=
  if group1.isNone ∧ idx1.isNone ∧ groupbyCategories.length = 1 then
    .error "Only a single group in the data."
  else
    match idx1 with
    | some m1 =>
        match prepare_obs n m1 idx2 with
        | .error e => .error e
        | .ok _ => .ok (deleteColumn (assignColumn cols "_scvi_temp_de") "_scvi_temp_de")
    | none => .ok cols

/-- NumPy `np.cumsum` with an explicit accumulator. -/
def cumsumFrom (acc : ℚ) : List ℚ → List ℚ
  | [] => []
  | v :: rest => (acc + v) :: cumsumFrom (acc + v) rest

/-- NumPy `np.cumsum`. -/
def cumsum (l : List ℚ) : List ℚ := cumsumFrom 0 l

/-- Division of the entry at 0-based position `j` by the rank `k + j + 1`
(`... / (1.0 + np.arange(len(sorted_pgs)))`). -/
def divByRankFrom (k : ℕ) : List ℚ → List ℚ
  | [] => []
  | v :: rest => (v / ((k : ℚ) + 1)) :: divByRankFrom (k + 1) rest

/-- Pandas `is_pred_de.iloc[:d] = True`: on the descending-sorted gene list, the
first `d` genes are flagged `True`, the rest `False`; the index labels are
kept. -/
def flagsFrom (d k : ℕ) : List (ℕ × ℚ) → List (ℕ × Bool)
  | [] => []
  | p :: rest => (p.1, decide (k < d)) :: flagsFrom d (k + 1) rest

/-- Pandas `sort_values(ascending=False)`: descending by value.
The source's unstable quicksort is realized by insertion sort; any order
consistent with descending values is a valid realization. -/
def sortValuesDesc (pairs : List (ℕ × ℚ)) : List (ℕ × ℚ) :=
  List.insertionSort (fun a b => b.2 ≤ a.2) pairs

/-- A boolean pandas Series: index labels with one boolean per label. -/
structure BSeries where
  index : List ℕ
  values : List Bool
deriving DecidableEq

/-- Pandas `series.loc[label]` as an association-list lookup (the index labels are
distinct in every use here). -/
def seriesGet (s : BSeries) (l : ℕ) : Option Bool :=
  (s.index.zip s.values).lookup l

/-- The `posterior_probas` argument of `_fdr_de_prediction`: either a 1-D
series (index labels and float values) or a 2-D frame. -/
inductive PandasInput where
  | series (index : List ℕ) (vals : List ℚ)
  | dataFrame (nrows ncols : ℕ)
deriving DecidableEq

/-- Pandas `.ndim`. -/
def PandasInput.ndim : PandasInput → ℕ
  | .series _ _ => 1
  | .dataFrame _ _ => 2

/-- Embedding of `_fdr_de_prediction` (lines 354-367): reject non-1-D input;
sort by descending posterior probability; cumulative expected FDR at rank
`k+1` is the cumulative sum of `1 - probability` divided by the rank;
`d = (cumulative_fdr <= fdr).sum()`; flag the first `d` sorted genes; return
the flags re-indexed by the original index (`is_pred_de.loc[original_index]`).
-/
def fdr_de_prediction (pp : PandasInput) (fdr : ℚ) : Except String BSeries :=
  match pp with
  | .dataFrame _ _ => .error "posterior_probas should be 1-dimensional"
  | .series idx vals =>
      let sorted_pgs := sortValuesDesc (idx.zip vals)
      let cumulative_fdr := divByRankFrom 0 (cumsum (sorted_pgs.map (fun p => 1 - p.2)))
      let d := cumulative_fdr.countP (fun c => decide (c ≤ fdr))
      let is_pred_de := flagsFrom d 0 sorted_pgs
      .ok ⟨idx, idx.map (fun l => (is_pred_de.lookup l).getD false)⟩

/-! ### Training-history merge (`src/scvi/train/_trainrunner.py`) -/

/-- One stored per-metric history: pandas row labels, one float row per
label, and the index name. -/
structure HSeries where
  index : List ℕ
  values : List ℚ
  indexName : Option String
deriving DecidableEq

/-- The `model.history_` attribute: either a metric-name-to-series dictionary
or some non-dict value (as left by a logger backend without a history
mapping, e.g. tensorboard). -/
inductive HistoryAttr where
  | dict (entries : List (String × HSeries))
  | nonDict
deriving DecidableEq

/-- Lookup in a `HistoryAttr`. -/
def dictLookup (a : HistoryAttr) (k : String) : Option HSeries :=
  match a with
  | .dict h => h.lookup k
  | .nonDict => none

/-- The merged entry for one metric: the second fit's rows are re-indexed by
`np.arange(prev_len, prev_len + new_len)` and concatenated after the first
fit's rows; the concatenated index keeps the first fit's index name. -/
def mergeEntry (kv : String × HSeries) (newHistory : List (String × HSeries)) :
    String × HSeries :=
  match newHistory.lookup kv.1 with
  | none => kv
  | some nv =>
      (kv.1,
       ⟨kv.2.index ++ (List.range nv.values.length).map (fun i => kv.2.values.length + i),
        kv.2.values ++ nv.values,
        kv.2.indexName⟩)

/-- Embedding of `TrainRunner._update_history` (lines 135-168).  On a second
fit (`is_trained` true): if `model.history_` is not a dict the merge is
skipped with a warning (second component `true`); otherwise each metric of
the stored history absent from `trainer.logger.history` is kept unchanged
(`continue`), and each metric present there gets the second fit's rows
appended with integer indices continuing from the stored length.  On a first
fit, `model.history_` is set to the logger history. -/
def update_history (is_trained : Bool) (history_ : HistoryAttr)
    (newHistory : List (String × HSeries)) : HistoryAttr × Bool :=
  if is_trained then
    match history_ with
    | .nonDict => (.nonDict, true)
    | .dict h => (.dict (h.map (fun kv => mergeEntry kv newHistory)), false)
  else
    (.dict newHistory, false)

end Scvi

namespace Scvi

/-! ### Flattening lemma and loss theorems (C1, C5, C8) -/

theorem sum_range_mul_div_mod {R : Type} [LinearOrderedField R] (P C : ℕ) (g : ℕ → ℕ → R) :
    ∑ idx ∈ Finset.range (P * C), g (idx / C) (idx % C)
      = ∑ i ∈ Finset.range P, ∑ j ∈ Finset.range C, g i j := by
  rcases Nat.eq_zero_or_pos C with hC | hC
  · subst hC; simp
  induction P with
  | zero => simp
  | succ P ih =>
      have hsplit : Finset.range ((P + 1) * C) = Finset.Ico 0 (P * C + C) := by
        rw [Finset.range_eq_Ico, Nat.succ_mul]
      rw [hsplit, ← Finset.sum_Ico_consecutive _ (Nat.zero_le (P * C)) (Nat.le_add_right _ C),
        ← Finset.range_eq_Ico, ih, Finset.sum_Ico_eq_sum_range]
      simp only [Nat.add_sub_cancel_left]
      rw [Finset.sum_range_succ]
      congr 1
      refine Finset.sum_congr rfl fun j hj => ?_
      have hjC : j < C := Finset.mem_range.mp hj
      have hdiv : (P * C + j) / C = P := by
        rw [mul_comm, Nat.mul_add_div hC, Nat.div_eq_of_lt hjC, Nat.add_zero]
      have hmod : (P * C + j) % C = j := by
        rw [mul_comm, Nat.mul_add_mod, Nat.mod_eq_of_lt hjC]
      rw [hdiv, hmod]

theorem div_mod_mul_add {C : ℕ} (i j : ℕ) (hj : j < C) :
    (i * C + j) / C = i ∧ (i * C + j) % C = j := by
  have hC : 0 < C := lt_of_le_of_lt (Nat.zero_le j) hj
  constructor
  · rw [mul_comm, Nat.mul_add_div hC, Nat.div_eq_of_lt hj, Nat.add_zero]
  · rw [mul_comm, Nat.mul_add_mod, Nat.mod_eq_of_lt hj]

theorem mean_ofMatrix {R : Type} [LinearOrderedField R] (P C : ℕ) (f : ℕ → ℕ → R) :
    (ofMatrix P C f).mean
      = (∑ i ∈ Finset.range P, ∑ j ∈ Finset.range C, f i j) / ((P : R) * (C : R)) := by
  unfold Tensor.mean Tensor.size ofMatrix
  simp only [List.prod_cons, List.prod_nil, mul_one]
  rw [sum_range_mul_div_mod, Nat.cast_mul]

theorem iwelbo_core {R : Type} [LinearOrderedField R] (expR : R → R) (P C : ℕ)
    (f : ℕ → ℕ → R) :
    (((((ofMatrix P C f).softmax0 expR).detach).mul (ofMatrix P C f)).sum0).mean
      = (∑ j ∈ Finset.range C, ∑ i ∈ Finset.range P,
          (expR (f i j) / ∑ k ∈ Finset.range P, expR (f k j)) * f i j) / (C : R) := by
  unfold Tensor.mean Tensor.size Tensor.sum0 Tensor.mul Tensor.detach Tensor.softmax0 ofMatrix
  simp only [List.prod_cons, List.prod_nil, mul_one, List.length_cons, List.length_nil]
  congr 1
  refine Finset.sum_congr rfl fun j hj => ?_
  have hjC : j < C := Finset.mem_range.mp hj
  refine Finset.sum_congr rfl fun i _ => ?_
  obtain ⟨hdiv, hmod⟩ := div_mod_mul_add i j hjC
  rw [hdiv, hmod]
  congr 2
  refine Finset.sum_congr rfl fun k _ => ?_
  obtain ⟨hdiv2, hmod2⟩ := div_mod_mul_add k j hjC
  rw [hdiv2, hmod2]

/-- C1: for every log_ratios matrix of shape (particles × cells) obtained as
`log_pjoint - log_qjoint`, `WVAE.loss` returns, in ELBO mode, the negative
mean of `log_ratios` over all entries, and in IWELBO mode the negative mean
over cells of the per-cell sum over the particle axis of (softmax of
`log_ratios` over the particle axis, detached — the identity on values) times
`log_ratios`.  The right-hand sides are the spec-side formulas `elboSpec` and
`iwelboSpec`. -/
theorem WVAE_loss_matches_spec_formulas {R : Type} [LinearOrderedField R]
    (expR : R → R) (P C : ℕ) (pj qj px : ℕ → ℕ → R) (w : R) :
    Except.map LossRecorder.loss
        (WVAE.loss expR "ELBO" (ofMatrix P C pj) (ofMatrix P C qj) (ofMatrix P C px) w)
      = .ok (elboSpec P C fun i j => pj i j - qj i j)
    ∧ Except.map LossRecorder.loss
        (WVAE.loss expR "IWELBO" (ofMatrix P C pj) (ofMatrix P C qj) (ofMatrix P C px) w)
      = .ok (iwelboSpec expR P C fun i j => pj i j - qj i j) := by
  have hsub : (ofMatrix P C pj).sub (ofMatrix P C qj)
      = ofMatrix P C (fun i j => pj i j - qj i j) := rfl
  have hndim : ((ofMatrix P C fun i j => pj i j - qj i j).ndim ≠ 2) = False := by
    simp [Tensor.ndim, ofMatrix]
  constructor
  · simp only [WVAE.loss, hsub, hndim, if_false, if_pos rfl]
    simp [Except.map, elboSpec, mean_ofMatrix]
  · simp only [WVAE.loss, hsub, hndim, if_false,
      if_neg (by decide : ¬ ("IWELBO" : String) = "ELBO"), if_pos rfl]
    simp [Except.map, iwelboSpec, iwelbo_core]

/-- C5: `WVAE.loss` fails with the shape-contract assertion exactly when
`log_pjoint - log_qjoint` is not 2-dimensional, fails with the
unknown-loss-type `ValueError` exactly when the tensor is 2-dimensional but
the configured mode is neither "ELBO" nor "IWELBO", and succeeds in every
other case. -/
theorem WVAE_loss_error_conditions {R : Type} [LinearOrderedField R]
    (expR : R → R) (lt : String) (pj qj px : Tensor R) (w : R) :
    (WVAE.loss expR lt pj qj px w = .error .assertionError ↔ (pj.sub qj).ndim ≠ 2)
    ∧ ((∃ msg, WVAE.loss expR lt pj qj px w = .error (.valueError msg)) ↔
        (pj.sub qj).ndim = 2 ∧ lt ≠ "ELBO" ∧ lt ≠ "IWELBO")
    ∧ ((∃ r, WVAE.loss expR lt pj qj px w = .ok r) ↔
        (pj.sub qj).ndim = 2 ∧ (lt = "ELBO" ∨ lt = "IWELBO")) := by
  by_cases h2 : (pj.sub qj).ndim = 2
  · by_cases hE : lt = "ELBO"
    · simp [WVAE.loss, h2, hE]
    · by_cases hI : lt = "IWELBO"
      · simp [WVAE.loss, h2, hE, hI]
      · simp [WVAE.loss, h2, hE, hI]
  · simp [WVAE.loss, h2]

/-- C8: two `WVAE.loss` calls that differ only in the (non-negative) KL
annealing weight return identical results — the weight does not influence the
loss, the reconstruction-loss metric, or the KL placeholders. -/
theorem WVAE_loss_ignores_kl_weight {R : Type} [LinearOrderedField R]
    (expR : R → R) (lt : String) (pj qj px : Tensor R) (w₁ w₂ : R)
    (hw₁ : 0 ≤ w₁) (hw₂ : 0 ≤ w₂) :
    WVAE.loss expR lt pj qj px w₁ = WVAE.loss expR lt pj qj px w₂ := rfl

/-- Witness for C8 at a concrete input. -/
theorem WVAE_loss_ignores_kl_weight_witness :
    (0 : ℚ) ≤ 0 ∧ (0 : ℚ) ≤ 1 ∧
      WVAE.loss (fun x : ℚ => x) "IWELBO" (ofMatrix 2 3 fun _ _ => 1)
          (ofMatrix 2 3 fun _ _ => 0) (ofMatrix 2 3 fun _ _ => 0) (0 : ℚ)
        = WVAE.loss (fun x : ℚ => x) "IWELBO" (ofMatrix 2 3 fun _ _ => 1)
          (ofMatrix 2 3 fun _ _ => 0) (ofMatrix 2 3 fun _ _ => 0) (1 : ℚ) :=
  ⟨le_refl 0, zero_le_one,
    WVAE_loss_ignores_kl_weight (fun x : ℚ => x) "IWELBO" _ _ _ 0 1 (le_refl 0) zero_le_one⟩

/-! ### Shape invariants (C4) and the likelihood shortcut (C3) -/

theorem bcRev_self (l : List ℕ) : bcRev l l = l := by
  induction l with
  | nil => rfl
  | cons x xs ih => simp [bcRev, ih]

theorem bcRev_self_append (l e : List ℕ) : bcRev l (l ++ e) = l ++ e := by
  induction l with
  | nil => rfl
  | cons x xs ih => simp [bcRev, ih]

theorem broadcastShape_self (s : Shape) : broadcastShape s s = s := by
  unfold broadcastShape
  rw [bcRev_self, List.reverse_reverse]

theorem broadcastShape_left_extend (s e : Shape) :
    broadcastShape s (e ++ s) = e ++ s := by
  unfold broadcastShape
  rw [List.reverse_append, bcRev_self_append, ← List.reverse_append, List.reverse_reverse]

/-- C3: `estimate_likelihood` never returns a log-likelihood — for every
configuration and every supplied latent/library pair it fails with
`KeyError: px`, because the dictionary returned by `WVAE.generative` has no
`px` entry. -/
theorem estimate_likelihood_raises_key_error (cfg : WVAECfg) (nCells nGenes : ℕ)
    (z library : Shape) :
    WVAE.estimate_likelihood cfg nCells nGenes z library = .error "KeyError: px" := rfl

/-- C4: for every configuration (observed library size included) and every
particle count `P ≥ 2`, comparing one inference call (and the matching
generative call) at `P` particles with the same calls at one particle: the
particle dimension is the leading dimension of `z`, `log_qjoint` and
`log_pjoint` (and of `library` when the library size is not observed), it
matches between them, and at `P = 1` it is absent — the rank drops by one.
When the library size is observed, `library` is (cells × 1) for every `P` and
never carries a particle dimension. -/
theorem particle_dimension_invariant (cfg : WVAECfg) (nCells nGenes P : ℕ)
    (hP : 2 ≤ P) :
    (WVAE.inferenceShapes cfg nCells (some P)).z
        = P :: (WVAE.inferenceShapes cfg nCells (some 1)).z
    ∧ (cfg.use_observed_lib_size = false →
        (WVAE.inferenceShapes cfg nCells (some P)).library
          = P :: (WVAE.inferenceShapes cfg nCells (some 1)).library)
    ∧ (cfg.use_observed_lib_size = true →
        (WVAE.inferenceShapes cfg nCells (some P)).library = [nCells, 1]
        ∧ (WVAE.inferenceShapes cfg nCells (some 1)).library = [nCells, 1])
    ∧ ((WVAE.inferenceShapes cfg nCells (some P)).log_qjoint
          = .tensor (P :: [nCells])
        ∧ (WVAE.inferenceShapes cfg nCells (some 1)).log_qjoint = .tensor [nCells])
    ∧ ((WVAE.generativeShapes cfg nCells nGenes
            (WVAE.inferenceShapes cfg nCells (some P)).z
            (WVAE.inferenceShapes cfg nCells (some P)).library).log_pjoint
          = .tensor (P :: [nCells])
        ∧ (WVAE.generativeShapes cfg nCells nGenes
            (WVAE.inferenceShapes cfg nCells (some 1)).z
            (WVAE.inferenceShapes cfg nCells (some 1)).library).log_pjoint
          = .tensor [nCells]) := by
  have hP1 : P ≠ 1 := by omega
  have hns : nSamplesTuple P = [P] := by simp [nSamplesTuple, hP1]
  have hns1 : nSamplesTuple 1 = [] := by simp [nSamplesTuple]
  cases hobs : cfg.use_observed_lib_size with
  | true =>
      refine ⟨?_, ?_, ?_, ?_, ?_⟩ <;>
        simp [WVAE.inferenceShapes, WVAE.generativeShapes, hobs, hns, hns1,
          rsampleShape, logProbShape, sumLastShape, SVal.add,
          reconstructionLogLikShape, decoderOutputShape,
          broadcastShape_self, broadcastShape, bcRev, List.dropLast]
  | false =>
      refine ⟨?_, ?_, ?_, ?_, ?_⟩ <;>
        simp [WVAE.inferenceShapes, WVAE.generativeShapes, hobs, hns, hns1,
          rsampleShape, logProbShape, sumLastShape, SVal.add,
          reconstructionLogLikShape, decoderOutputShape,
          broadcastShape_self, broadcastShape, bcRev, List.dropLast]

/-- Witness for C4 at a concrete configuration and particle count. -/
theorem particle_dimension_invariant_witness :
    (2 ≤ 2) ∧
      (WVAE.inferenceShapes ⟨25, false, 10, "gene"⟩ 3 (some 2)).z
        = 2 :: (WVAE.inferenceShapes ⟨25, false, 10, "gene"⟩ 3 (some 1)).z :=
  ⟨le_refl 2,
    (particle_dimension_invariant ⟨25, false, 10, "gene"⟩ 3 4 2 (le_refl 2)).1⟩

/-! ### Mask preparation and the synthetic grouping column (C9, C6) -/

/-- C9: in `_prepare_obs`, when both masks are provided and both select cell
`i`, the cell is labelled `"two"` — the `idx2` labelling overwrites the
`idx1` labelling, so overlapping cells are counted only in population two. -/
theorem prepare_obs_overlap_labels_two (n : ℕ) (m1 m2 : List Bool) (i : ℕ)
    (h1 : countTrue m1 ≠ 0) (h2 : countTrue m2 ≠ 0) (hi : i < n)
    (hm1 : m1.getD i false = true) (hm2 : m2.getD i false = true) :
    ∃ col g2, prepare_obs n m1 (some m2) = .ok (col, ["one"], g2)
      ∧ col[i]? = some "two" ∧ g2 = some "two" := by
  simp only [prepare_obs]
  rw [if_neg (by simp [h1, h2])]
  refine ⟨_, _, rfl, ?_, rfl⟩
  rw [List.getElem?_map, List.getElem?_range hi]
  show some (if m2.getD i false = true then "two"
      else if m1.getD i false = true then "one" else "None") = some "two"
  rw [if_pos hm2]

/-- Witness for C9 at concrete masks. -/
theorem prepare_obs_overlap_labels_two_witness :
    countTrue [true, true] ≠ 0 ∧ countTrue [false, true] ≠ 0 ∧ 1 < 2
    ∧ ([true, true].getD 1 false = true) ∧ ([false, true].getD 1 false = true)
    ∧ ∃ col g2, prepare_obs 2 [true, true] (some [false, true]) = .ok (col, ["one"], g2)
        ∧ col[1]? = some "two" ∧ g2 = some "two" :=
  ⟨by decide, by decide, by decide, by decide, by decide,
    prepare_obs_overlap_labels_two 2 [true, true] [false, true] 1
      (by decide) (by decide) (by decide) (by decide) (by decide)⟩

/-- C6: a mask-based DE call with two non-overlapping, non-empty boolean
masks completes normally and the synthetic `_scvi_temp_de` column is removed
again, so the obs-table column list after the call equals the one before the
call (the synthetic column was not previously present). -/
theorem de_core_restores_columns (n : ℕ) (cols : List String)
    (group1 : Option (List String)) (gcats : List String) (m1 m2 : List Bool)
    (h1 : countTrue m1 ≠ 0) (h2 : countTrue m2 ≠ 0)
    (hdisj : ∀ i, i < n → ¬(m1.getD i false = true ∧ m2.getD i false = true))
    (htemp : "_scvi_temp_de" ∉ cols) :
    de_core_columns n cols group1 (some m1) (some m2) gcats = .ok cols := by
  have hprep : prepare_obs n m1 (some m2)
      = .ok ((List.range n).map (fun i =>
          if m2.getD i false then "two"
          else if m1.getD i false then "one"
          else "None"), ["one"], some "two") := by
    simp only [prepare_obs]
    rw [if_neg (by simp [h1, h2])]
    rfl
  simp only [de_core_columns]
  rw [if_neg (by simp)]
  simp only [hprep]
  rw [assignColumn, if_neg htemp, deleteColumn,
    List.erase_append_right _ htemp, List.erase_cons_head, List.append_nil]

/-- Witness for C6 at concrete masks and columns. -/
theorem de_core_restores_columns_witness :
    countTrue [true, false] ≠ 0 ∧ countTrue [false, true] ≠ 0
    ∧ (∀ i, i < 2 → ¬(([true, false].getD i false = true)
          ∧ ([false, true].getD i false = true)))
    ∧ "_scvi_temp_de" ∉ ["n_genes", "batch"]
    ∧ de_core_columns 2 ["n_genes", "batch"] none (some [true, false])
        (some [false, true]) [] = .ok ["n_genes", "batch"] :=
  ⟨by decide, by decide, by decide, by decide,
    de_core_restores_columns 2 ["n_genes", "batch"] none [] [true, false] [false, true]
      (by decide) (by decide) (by decide) (by decide)⟩

/-! ### History merging on a second fit (C7, C10) -/

theorem mergeEntry_fst (kv : String × HSeries) (newH : List (String × HSeries)) :
    (mergeEntry kv newH).1 = kv.1 := by
  unfold mergeEntry
  cases newH.lookup kv.1 <;> rfl

theorem lookup_map_keyPres {β : Type} (F : String × β → String × β)
    (hF : ∀ kv, (F kv).1 = kv.1) :
    ∀ (h : List (String × β)) (k : String) (val : β),
      (h.map Prod.fst).Nodup → (k, val) ∈ h →
      (h.map F).lookup k = some (F (k, val)).2 := by
  intro h
  induction h with
  | nil => intro k val _ hmem; cases hmem
  | cons p rest ih =>
      intro k val hnodup hmem
      have hnd1 : p.1 ∉ rest.map Prod.fst := by
        have h0 := hnodup
        simp only [List.map_cons, List.nodup_cons] at h0
        exact h0.1
      have hnd2 : (rest.map Prod.fst).Nodup := by
        have h0 := hnodup
        simp only [List.map_cons, List.nodup_cons] at h0
        exact h0.2
      rcases List.mem_cons.mp hmem with hpk | hmem2
      · subst hpk
        simp only [List.map_cons]
        rcases hFkv : F (k, val) with ⟨a, b⟩
        have ha : a = k := by
          have h1 := hF (k, val)
          rw [hFkv] at h1
          exact h1
        subst ha
        rw [List.lookup_cons]
        simp
      · have hkne : (k == p.1) = false := by
          apply Bool.eq_false_iff.mpr
          intro hkp
          apply hnd1
          rw [← (beq_iff_eq.mp hkp)]
          exact List.mem_map_of_mem Prod.fst hmem2
        simp only [List.map_cons]
        rcases hFkv : F p with ⟨a, b⟩
        have ha : a = p.1 := by
          have h1 := hF p
          rw [hFkv] at h1
          exact h1
        rw [List.lookup_cons, ha, hkne]
        exact ih k val hnd2 hmem2

theorem map_fst_map_keyPres {β : Type} (F : String × β → String × β)
    (hF : ∀ kv, (F kv).1 = kv.1) (h : List (String × β)) :
    (h.map F).map Prod.fst = h.map Prod.fst := by
  rw [List.map_map]
  exact List.map_congr_left fun kv _ => hF kv

/-- C7: on a second fit with a dict-shaped stored history, no warning is
raised and, for every metric of the stored history that the new logger
history also contains, the merged entry appends the second fit's rows after
the first fit's rows with integer indices continuing from the stored length;
a non-dict stored history (logger backend without a history mapping) is left
unchanged with a warning instead of failing. -/
theorem update_history_second_fit (h newH : List (String × HSeries))
    (hnodup : (h.map Prod.fst).Nodup) :
    (∀ k val nv, (k, val) ∈ h → newH.lookup k = some nv →
        dictLookup (update_history true (.dict h) newH).1 k
          = some ⟨val.index ++ (List.range nv.values.length).map
                    (fun i => val.values.length + i),
                  val.values ++ nv.values, val.indexName⟩)
    ∧ (update_history true (.dict h) newH).2 = false
    ∧ update_history true .nonDict newH = (.nonDict, true) := by
  refine ⟨?_, rfl, rfl⟩
  intro k val nv hmem hnew
  have hl := lookup_map_keyPres (fun kv => mergeEntry kv newH)
    (fun kv => mergeEntry_fst kv newH) h k val hnodup hmem
  show (h.map (fun kv => mergeEntry kv newH)).lookup k = _
  rw [hl]
  simp [mergeEntry, hnew]

/-- Witness for C7 at a concrete two-fit history. -/
theorem update_history_second_fit_witness :
    (([("elbo_train", (⟨[0, 1], [5, 6], some "epoch"⟩ : HSeries))].map Prod.fst).Nodup)
    ∧ dictLookup (update_history true
          (.dict [("elbo_train", ⟨[0, 1], [5, 6], some "epoch"⟩)])
          [("elbo_train", ⟨[0, 1], [7, 8], none⟩)]).1 "elbo_train"
        = some ⟨[0, 1] ++ (List.range 2).map (fun i => 2 + i), [5, 6] ++ [7, 8],
                some "epoch"⟩ :=
  ⟨by decide,
    (update_history_second_fit [("elbo_train", ⟨[0, 1], [5, 6], some "epoch"⟩)]
        [("elbo_train", ⟨[0, 1], [7, 8], none⟩)] (by decide)).1
      "elbo_train" ⟨[0, 1], [5, 6], some "epoch"⟩ ⟨[0, 1], [7, 8], none⟩
      (by decide) rfl⟩

theorem lookup_eq_none_of_not_mem_keys {β : Type} (h : List (String × β)) (k : String)
    (hk : k ∉ h.map Prod.fst) : h.lookup k = none := by
  induction h with
  | nil => rfl
  | cons p rest ih =>
      have hk1 : k ≠ p.1 := fun he => hk (by rw [he]; exact List.mem_map_of_mem _ (by simp))
      have hk2 : k ∉ rest.map Prod.fst := fun hm => hk (by simp [hm])
      cases p with
      | mk a b =>
          simp only [List.lookup]
          rw [show (k == a) = false from Bool.eq_false_iff.mpr (by simpa using hk1)]
          exact ih hk2

/-- C10: the history merge on a second fit preserves the metric-key set of the
stored history — a metric present only in the new logger history is never
added, and a stored metric absent from the new logger history keeps its
first-fit rows unchanged. -/
theorem update_history_preserves_metric_keys (h newH : List (String × HSeries))
    (hnodup : (h.map Prod.fst).Nodup) :
    (match (update_history true (.dict h) newH).1 with
      | .dict res => res.map Prod.fst
      | .nonDict => []) = h.map Prod.fst
    ∧ (∀ k, k ∉ h.map Prod.fst →
        dictLookup (update_history true (.dict h) newH).1 k = none)
    ∧ (∀ k val, (k, val) ∈ h → newH.lookup k = none →
        dictLookup (update_history true (.dict h) newH).1 k = some val) := by
  refine ⟨?_, ?_, ?_⟩
  · simp only [update_history]
    exact map_fst_map_keyPres _ (fun kv => mergeEntry_fst kv newH) h
  · intro k hk
    simp only [update_history, dictLookup]
    refine lookup_eq_none_of_not_mem_keys _ k ?_
    rw [map_fst_map_keyPres _ (fun kv => mergeEntry_fst kv newH) h]
    exact hk
  · intro k val hmem hnone
    have hl := lookup_map_keyPres (fun kv => mergeEntry kv newH)
      (fun kv => mergeEntry_fst kv newH) h k val hnodup hmem
    show (h.map (fun kv => mergeEntry kv newH)).lookup k = _
    rw [hl]
    simp [mergeEntry, hnone]

/-- Witness for C10 at a concrete history whose second fit lacks the stored
metric and adds a new one. -/
theorem update_history_preserves_metric_keys_witness :
    (([("elbo_train", (⟨[0], [5], none⟩ : HSeries))].map Prod.fst).Nodup)
    ∧ (match (update_history true (.dict [("elbo_train", ⟨[0], [5], none⟩)])
          [("elbo_validation", ⟨[0], [9], none⟩)]).1 with
        | .dict res => res.map Prod.fst
        | .nonDict => []) = [("elbo_train", (⟨[0], [5], none⟩ : HSeries))].map Prod.fst
    ∧ dictLookup (update_history true (.dict [("elbo_train", ⟨[0], [5], none⟩)])
          [("elbo_validation", ⟨[0], [9], none⟩)]).1 "elbo_validation" = none
    ∧ dictLookup (update_history true (.dict [("elbo_train", ⟨[0], [5], none⟩)])
          [("elbo_validation", ⟨[0], [9], none⟩)]).1 "elbo_train"
        = some ⟨[0], [5], none⟩ := by
  have h := update_history_preserves_metric_keys
    [("elbo_train", ⟨[0], [5], none⟩)] [("elbo_validation", ⟨[0], [9], none⟩)] (by decide)
  exact ⟨by decide, h.1, h.2.1 "elbo_validation" (by decide),
    h.2.2 "elbo_train" ⟨[0], [5], none⟩ (by decide) rfl⟩

/-! ### FDR procedure lemmas (C2) -/

theorem cumsumFrom_length (l : List ℚ) : ∀ acc, (cumsumFrom acc l).length = l.length := by
  induction l with
  | nil => intro acc; rfl
  | cons v rest ih => intro acc; simp [cumsumFrom, ih]

theorem divByRankFrom_length (l : List ℚ) : ∀ k, (divByRankFrom k l).length = l.length := by
  induction l with
  | nil => intro k; rfl
  | cons v rest ih => intro k; simp [divByRankFrom, ih]

theorem flagsFrom_length (L : List (ℕ × ℚ)) : ∀ d k, (flagsFrom d k L).length = L.length := by
  induction L with
  | nil => intro d k; rfl
  | cons p rest ih => intro d k; simp [flagsFrom, ih]

theorem cumsumFrom_getD (l : List ℚ) :
    ∀ acc k, k < l.length → (cumsumFrom acc l).getD k 0 = acc + ((l.take (k + 1)).sum) := by
  induction l with
  | nil => intro acc k hk; cases hk
  | cons v rest ih =>
      intro acc k hk
      cases k with
      | zero => simp [cumsumFrom]
      | succ k =>
          have hk2 : k < rest.length := by simpa using hk
          simp only [cumsumFrom, List.getD_cons_succ, List.take_succ_cons, List.sum_cons]
          rw [ih (acc + v) k hk2]
          ring

theorem divByRankFrom_getD (l : List ℚ) :
    ∀ k j, j < l.length →
      (divByRankFrom k l).getD j 0 = l.getD j 0 / (((k + j : ℕ) : ℚ) + 1) := by
  induction l with
  | nil => intro k j hj; cases hj
  | cons v rest ih =>
      intro k j hj
      cases j with
      | zero => simp [divByRankFrom]
      | succ j =>
          have hj2 : j < rest.length := by simpa using hj
          simp only [divByRankFrom, List.getD_cons_succ]
          rw [ih (k + 1) j hj2]
          congr 2
          push_cast
          ring

theorem flagsFrom_getD (L : List (ℕ × ℚ)) :
    ∀ d k j, j < L.length →
      (flagsFrom d k L).getD j (0, false)
        = ((L.getD j (0, 0)).1, decide (k + j < d)) := by
  induction L with
  | nil => intro d k j hj; cases hj
  | cons p rest ih =>
      intro d k j hj
      cases j with
      | zero => simp [flagsFrom]
      | succ j =>
          have hj2 : j < rest.length := by simpa using hj
          simp only [flagsFrom, List.getD_cons_succ]
          rw [ih d (k + 1) j hj2]
          have harith : k + 1 + j = k + (j + 1) := by omega
          rw [harith]

theorem flagsFrom_map_fst (L : List (ℕ × ℚ)) :
    ∀ d k, (flagsFrom d k L).map Prod.fst = L.map Prod.fst := by
  induction L with
  | nil => intro d k; rfl
  | cons p rest ih => intro d k; simp [flagsFrom, ih]

theorem sortValuesDesc_sorted (pairs : List (ℕ × ℚ)) :
    List.Sorted (fun a b : ℕ × ℚ => b.2 ≤ a.2) (sortValuesDesc pairs) := by
  haveI : IsTotal (ℕ × ℚ) (fun a b : ℕ × ℚ => b.2 ≤ a.2) :=
    ⟨fun a b => le_total b.2 a.2⟩
  haveI : IsTrans (ℕ × ℚ) (fun a b : ℕ × ℚ => b.2 ≤ a.2) :=
    ⟨fun _ _ _ h1 h2 => le_trans h2 h1⟩
  exact List.sorted_insertionSort _ pairs

theorem sortValuesDesc_perm (pairs : List (ℕ × ℚ)) :
    (sortValuesDesc pairs).Perm pairs :=
  List.perm_insertionSort _ pairs

theorem avg_mono (q : List ℚ) (hq : List.Sorted (· ≤ ·) q) (j : ℕ)
    (hj : j + 1 < q.length) :
    (q.take (j + 1)).sum / ((j : ℚ) + 1) ≤ (q.take (j + 2)).sum / (((j : ℚ) + 1) + 1) := by
  have hsum : (q.take (j + 2)).sum = (q.take (j + 1)).sum + q.get ⟨j + 1, hj⟩ := by
    rw [List.get_eq_getElem]
    exact List.sum_take_succ q (j + 1) hj
  have hbound : (q.take (j + 1)).sum ≤ ((j : ℚ) + 1) * q.get ⟨j + 1, hj⟩ := by
    have hall : ∀ x ∈ q.take (j + 1), x ≤ q.get ⟨j + 1, hj⟩ := by
      intro x hx
      obtain ⟨i, hi, hxi⟩ := List.mem_iff_getElem.mp hx
      have hi2 : i < q.length := lt_of_lt_of_le hi (by simp [List.length_take])
      have hij : i < j + 1 := lt_of_lt_of_le hi (by simp [List.length_take])
      rw [← hxi, List.getElem_take]
      have := List.pairwise_iff_get.mp hq ⟨i, hi2⟩ ⟨j + 1, hj⟩ (by simpa using hij)
      simpa using this
    have hle := List.sum_le_card_nsmul (q.take (j + 1)) (q.get ⟨j + 1, hj⟩) hall
    have hlen : (q.take (j + 1)).length = j + 1 := by
      simp [List.length_take]
      omega
    rw [hlen, nsmul_eq_mul] at hle
    push_cast at hle
    linarith
  have h1 : (0 : ℚ) < (j : ℚ) + 1 := by positivity
  have h2 : (0 : ℚ) < ((j : ℚ) + 1) + 1 := by positivity
  rw [div_le_div_iff₀ h1 h2, hsum]
  nlinarith [hbound]

theorem decide_congr_of_iff {p q : Prop} [Decidable p] [Decidable q] (h : p ↔ q) :
    decide p = decide q := by
  by_cases hp : p
  · simp [hp, h.mp hp]
  · have hq : ¬q := fun hq => hp (h.mpr hq)
    simp [hp, hq]

theorem sorted_countP_le_iff (cf : List ℚ) (fdr : ℚ) :
    List.Sorted (· ≤ ·) cf →
    ∀ k, k < cf.length →
      (cf.getD k 0 ≤ fdr ↔ k < cf.countP (fun c => decide (c ≤ fdr))) := by
  induction cf with
  | nil => intro _ k hk; cases hk
  | cons x rest ih =>
      intro hs k hk
      obtain ⟨hx, hrest⟩ := List.sorted_cons.mp hs
      by_cases hxf : x ≤ fdr
      · rw [List.countP_cons]
        have hxd : (decide (x ≤ fdr)) = true := decide_eq_true_eq.mpr hxf
        cases k with
        | zero =>
            simp only [List.getD_cons_zero, hxd]
            simp [hxf]
        | succ k =>
            have hk2 : k < rest.length := by simpa using hk
            simp only [List.getD_cons_succ, hxd]
            rw [ih hrest k hk2]
            simp [Nat.succ_lt_succ_iff]
      · have hzero : rest.countP (fun c => decide (c ≤ fdr)) = 0 := by
          rw [List.countP_eq_zero]
          intro a ha
          simp only [decide_eq_true_eq]
          intro haf
          exact hxf (le_trans (hx a ha) haf)
        have hxd : (decide (x ≤ fdr)) = false := by simp [hxf]
        rw [List.countP_cons, hzero, hxd]
        simp only [Bool.false_eq_true, if_false, Nat.add_zero, Nat.not_lt_zero,
          iff_false]
        cases k with
        | zero => simpa using hxf
        | succ k =>
            have hk2 : k < rest.length := by simpa using hk
            simp only [List.getD_cons_succ]
            intro hle
            apply hxf
            refine le_trans (hx (rest.getD k 0) ?_) hle
            rw [List.getD_eq_getElem rest 0 hk2]
            exact List.getElem_mem hk2

theorem lookup_zip_map (idx : List ℕ) (g : ℕ → Bool) :
    ∀ l, l ∈ idx → (idx.zip (idx.map g)).lookup l = some (g l) := by
  induction idx with
  | nil => intro l hl; cases hl
  | cons a rest ih =>
      intro l hl
      simp only [List.map_cons, List.zip_cons_cons, List.lookup_cons]
      by_cases hla : l = a
      · subst hla
        simp
      · rw [show (l == a) = false from Bool.eq_false_iff.mpr (by simpa using hla)]
        exact ih l (by
          rcases List.mem_cons.mp hl with h | h
          · exact absurd h hla
          · exact h)

theorem lookup_pos_assoc (L : List (ℕ × Bool)) :
    ∀ k, (L.map Prod.fst).Nodup → k < L.length →
      L.lookup (L.getD k (0, false)).1 = some (L.getD k (0, false)).2 := by
  induction L with
  | nil => intro k _ hk; cases hk
  | cons p rest ih =>
      intro k hnd hk
      have hnd1 : p.1 ∉ rest.map Prod.fst := by
        have h0 := hnd
        simp only [List.map_cons, List.nodup_cons] at h0
        exact h0.1
      have hnd2 : (rest.map Prod.fst).Nodup := by
        have h0 := hnd
        simp only [List.map_cons, List.nodup_cons] at h0
        exact h0.2
      cases k with
      | zero =>
          rcases p with ⟨a, b⟩
          simp [List.lookup_cons]
      | succ k =>
          have hk2 : k < rest.length := by simpa using hk
          simp only [List.getD_cons_succ]
          rcases p with ⟨a, b⟩
          rw [List.lookup_cons]
          have hne : ((rest.getD k (0, false)).1 == a) = false := by
            apply Bool.eq_false_iff.mpr
            intro hbeq
            apply hnd1
            show a ∈ rest.map Prod.fst
            rw [← (beq_iff_eq.mp hbeq), List.getD_eq_getElem rest (0, false) hk2]
            exact List.mem_map_of_mem Prod.fst (List.getElem_mem hk2)
          rw [hne]
          exact ih k hnd2 hk2

theorem cf_sorted (q : List ℚ) (hq : List.Sorted (· ≤ ·) q) :
    List.Sorted (· ≤ ·) (divByRankFrom 0 (cumsum q)) := by
  have hlen : (divByRankFrom 0 (cumsum q)).length = q.length := by
    rw [divByRankFrom_length, cumsum, cumsumFrom_length]
  rw [List.Sorted, ← List.chain'_iff_pairwise, List.chain'_iff_get]
  intro i hi
  have hi1 : i < (divByRankFrom 0 (cumsum q)).length := by omega
  have hi2 : i + 1 < (divByRankFrom 0 (cumsum q)).length := by omega
  have hq1 : i < q.length := by omega
  have hq2 : i + 1 < q.length := by omega
  have hc1 : i < (cumsum q).length := by rw [cumsum, cumsumFrom_length]; exact hq1
  have hc2 : i + 1 < (cumsum q).length := by rw [cumsum, cumsumFrom_length]; exact hq2
  rw [List.get_eq_getElem, List.get_eq_getElem,
    ← List.getD_eq_getElem (divByRankFrom 0 (cumsum q)) 0 hi1,
    ← List.getD_eq_getElem (divByRankFrom 0 (cumsum q)) 0 hi2,
    divByRankFrom_getD (cumsum q) 0 i hc1, divByRankFrom_getD (cumsum q) 0 (i + 1) hc2,
    cumsum, cumsumFrom_getD q 0 i hq1, cumsumFrom_getD q 0 (i + 1) hq2]
  have := avg_mono q hq i hq2
  push_cast
  simpa using this

theorem fdr_general (idx : List ℕ) (vals : List ℚ) (fdr : ℚ)
    (hlen : idx.length = vals.length) (hnodup : idx.Nodup) :
    ∃ res : BSeries,
      fdr_de_prediction (.series idx vals) fdr = .ok res
      ∧ res.index = idx
      ∧ ∀ k, k < idx.length →
          seriesGet res ((sortValuesDesc (idx.zip vals)).getD k (0, 0)).1
            = some (decide ((divByRankFrom 0 (cumsum ((sortValuesDesc
                (idx.zip vals)).map (fun p => 1 - p.2)))).getD k 0 ≤ fdr)) := by
  refine ⟨⟨idx, idx.map (fun l =>
    ((flagsFrom ((divByRankFrom 0 (cumsum ((sortValuesDesc (idx.zip vals)).map
        (fun p : ℕ × ℚ => 1 - p.2)))).countP (fun c => decide (c ≤ fdr))) 0
      (sortValuesDesc (idx.zip vals))).lookup l).getD false)⟩, rfl, rfl, ?_⟩
  intro k hk
  set pairs := idx.zip vals with hpairs
  set sorted := sortValuesDesc pairs with hsortdef
  set q : List ℚ := sorted.map (fun p => 1 - p.2) with hqdef
  set cf := divByRankFrom 0 (cumsum q) with hcfdef
  set d := cf.countP (fun c => decide (c ≤ fdr)) with hddef
  have hplen : pairs.length = idx.length := by
    rw [hpairs, List.length_zip, hlen, min_self]
  have hslen : sorted.length = idx.length := by
    rw [hsortdef, (sortValuesDesc_perm pairs).length_eq, hplen]
  have hfst_perm : (sorted.map Prod.fst).Perm idx := by
    have h1 := (sortValuesDesc_perm pairs).map Prod.fst
    rw [hpairs, List.map_fst_zip idx vals (le_of_eq hlen)] at h1
    exact h1
  have hnd_sorted : (sorted.map Prod.fst).Nodup := (hfst_perm.nodup_iff).mpr hnodup
  have hks : k < sorted.length := by rw [hslen]; exact hk
  have hlabel_mem : (sorted.getD k (0, 0)).1 ∈ idx := by
    apply (hfst_perm.mem_iff).mp
    rw [List.getD_eq_getElem sorted (0, 0) hks]
    exact List.mem_map_of_mem Prod.fst (List.getElem_mem hks)
  rw [show seriesGet ⟨idx, idx.map (fun l => ((flagsFrom d 0 sorted).lookup l).getD false)⟩
        ((sorted.getD k (0, 0)).1)
      = (idx.zip (idx.map (fun l => ((flagsFrom d 0 sorted).lookup l).getD false))).lookup
          ((sorted.getD k (0, 0)).1) from rfl,
    lookup_zip_map idx _ _ hlabel_mem]
  have h2 : (flagsFrom d 0 sorted).lookup (sorted.getD k (0, 0)).1
      = some (decide (k < d)) := by
    have hnodup2 : ((flagsFrom d 0 sorted).map Prod.fst).Nodup := by
      rw [flagsFrom_map_fst]; exact hnd_sorted
    have hklen : k < (flagsFrom d 0 sorted).length := by
      rw [flagsFrom_length]; exact hks
    have hla := lookup_pos_assoc (flagsFrom d 0 sorted) k hnodup2 hklen
    rw [flagsFrom_getD sorted d 0 k hks] at hla
    simpa using hla
  rw [h2]
  simp only [Option.getD_some]
  have hq_sorted : List.Sorted (· ≤ ·) q := by
    rw [hqdef, List.Sorted, List.pairwise_map]
    exact (sortValuesDesc_sorted pairs).imp (fun h => by simpa using sub_le_sub_left h 1)
  have hkcf : k < cf.length := by
    rw [hcfdef, divByRankFrom_length, cumsum, cumsumFrom_length, hqdef,
      List.length_map]
    exact hks
  have hiff := sorted_countP_le_iff cf fdr (cf_sorted q hq_sorted) k hkcf
  rw [decide_congr_of_iff (Iff.symm hiff)]

theorem fdr_concrete :
    fdr_de_prediction (.series [0, 1, 2, 3, 4] [9/10, 8/10, 7/10, 1/10, 1/20]) (1/10)
      = .ok ⟨[0, 1, 2, 3, 4], [true, false, false, false, false]⟩ := by
  have hsort : sortValuesDesc ([0, 1, 2, 3, 4].zip [9/10, 8/10, 7/10, 1/10, 1/20])
      = [(0, 9/10), (1, 8/10), (2, 7/10), (3, 1/10), (4, 1/20)] := by
    norm_num [sortValuesDesc, List.insertionSort, List.orderedInsert]
  simp only [fdr_de_prediction, hsort]
  norm_num [cumsum, cumsumFrom, divByRankFrom, List.countP_cons, List.countP_nil,
    flagsFrom, List.lookup]
  decide

/-- C2: the FDR procedure (i) on every 1-D series with distinct labels sorts
the probabilities descending and flags the gene at descending rank `k`
exactly when the cumulative expected FDR at rank `k` — the cumulative sum of
(1 − probability) divided by the rank — does not exceed the threshold (the
cumulative expected FDR is nondecreasing along descending ranks, so the
flagged ranks are precisely the ranks up to the largest one whose cumulative
expected FDR stays within the threshold), returning the flags on the
original (unsorted) index; (ii) on input [0.9, 0.8, 0.7, 0.1, 0.05] with
threshold 0.1 it flags exactly the first gene, matching the manual
calculation; (iii) on every input that is not 1-dimensional it fails. -/
theorem fdr_de_prediction_spec :
    (∀ (idx : List ℕ) (vals : List ℚ) (fdr : ℚ),
        idx.length = vals.length → idx.Nodup →
        ∃ res : BSeries,
          fdr_de_prediction (.series idx vals) fdr = .ok res
          ∧ res.index = idx
          ∧ ∀ k, k < idx.length →
              seriesGet res ((sortValuesDesc (idx.zip vals)).getD k (0, 0)).1
                = some (decide ((divByRankFrom 0 (cumsum ((sortValuesDesc
                    (idx.zip vals)).map (fun p => 1 - p.2)))).getD k 0 ≤ fdr)))
    ∧ fdr_de_prediction (.series [0, 1, 2, 3, 4] [9/10, 8/10, 7/10, 1/10, 1/20]) (1/10)
        = .ok ⟨[0, 1, 2, 3, 4], [true, false, false, false, false]⟩
    ∧ (∀ (nr nc : ℕ) (fdr : ℚ),
        fdr_de_prediction (.dataFrame nr nc) fdr
          = .error "posterior_probas should be 1-dimensional") :=
  ⟨fdr_general, fdr_concrete, fun _ _ _ => rfl⟩

/-- Witness for C2 at a concrete 1-D series. -/
theorem fdr_de_prediction_spec_witness :
    ([10, 20] : List ℕ).length = ([1, 0] : List ℚ).length
    ∧ ([10, 20] : List ℕ).Nodup
    ∧ ∃ res : BSeries,
        fdr_de_prediction (.series [10, 20] [1, 0]) (1/2) = .ok res
        ∧ res.index = [10, 20]
        ∧ ∀ k, k < ([10, 20] : List ℕ).length →
            seriesGet res ((sortValuesDesc ([10, 20].zip ([1, 0] : List ℚ))).getD
                k (0, 0)).1
              = some (decide ((divByRankFrom 0 (cumsum ((sortValuesDesc
                  ([10, 20].zip ([1, 0] : List ℚ))).map
                    (fun p => 1 - p.2)))).getD k 0 ≤ 1/2)) :=
  ⟨rfl, by decide, fdr_de_prediction_spec.1 [10, 20] [1, 0] (1/2) rfl (by decide)⟩

end Scvi
